import Mathlib

/-!
Verification development for a BitTorrent peer-protocol downloader
(source files: src/peer.rs, src/client.rs, src/torrent.rs, src/tracker.rs,
src/main.rs).

Bytes are modelled as `Nat` (values < 256 where it matters).  The async
byte stream of `tokio::net::TcpStream` is modelled as a list of
`(duration, byte)` pairs: reading a byte takes `duration` seconds of wall
clock, which is how the `Instant`-based deadline of `Message::decode`
advances.  A stream may end in one of two ways, captured by a `closed`
flag: `closed = true` means the peer closed the connection, so a read past
the end returns an I/O error (propagated by `?`); `closed = false` means
the connection stays open but silent, so a read past the end never
completes — modelled by the distinguished result `blocked`.
-/

namespace BitTorrent

/-- The `MessageTag` enum of peer.rs (lines 123-133): the closed set of
wire-message tags, numbered 0..=8. -/
inductive MessageTag
  | Choke
  | Unchoke
  | Interested
  | NotInterested
  | Have
  | Bitfield
  | Request
  | Piece
  | Cancel
deriving DecidableEq, Repr

/-- The numeric value of a tag (`tag as u8` in `Message::encode`). -/
def MessageTag.toNat : MessageTag → Nat
  | .Choke => 0
  | .Unchoke => 1
  | .Interested => 2
  | .NotInterested => 3
  | .Have => 4
  | .Bitfield => 5
  | .Request => 6
  | .Piece => 7
  | .Cancel => 8

/-- The function `MessageTag::from(idx)` of peer.rs (lines 135-148): maps 0..=8 to the
tag and rejects anything else with an error. -/
def MessageTag.ofIdx : Nat → Except String MessageTag
  | 0 => .ok .Choke
  | 1 => .ok .Unchoke
  | 2 => .ok .Interested
  | 3 => .ok .NotInterested
  | 4 => .ok .Have
  | 5 => .ok .Bitfield
  | 6 => .ok .Request
  | 7 => .ok .Piece
  | 8 => .ok .Cancel
  | _ => .error "Not available"

/-- The `Message` struct of peer.rs (lines 150-154): a tag plus an opaque
payload byte sequence. -/
structure Message where
  tag : MessageTag
  payload : List Nat
deriving DecidableEq, Repr

/-- Big-endian 4-byte encoding of a `u32` value, as produced by tokio's
`write_u32`. -/
def u32beBytes (n : Nat) : List Nat :=
  [n / 16777216 % 256, n / 65536 % 256, n / 256 % 256, n % 256]

/-- The value read back by tokio's `read_u32` from 4 big-endian bytes. -/
def u32beVal (bs : List Nat) : Nat :=
  bs.foldl (fun acc b => acc * 256 + b) 0

/-- The function `Message::encode` of peer.rs (lines 156-169): the byte sequence written
to the stream, `u32_be(payload.len() + 1) || tag_byte || payload`.  The
`as u32` cast of the length is the `% 2^32`. -/
def Message.encode (tag : MessageTag) (payload : List Nat) : List Nat :=
  u32beBytes ((payload.length + 1) % 4294967296) ++ tag.toNat :: payload

/-- Read `n` bytes off a timed stream; returns the total wall-clock
duration of the reads, the bytes, and the rest of the stream, or `none`
when fewer than `n` bytes will ever arrive. -/
def readBytes : Nat → List (Nat × Nat) → Option (Nat × List Nat × List (Nat × Nat))
  | 0, s => some (0, [], s)
  | _ + 1, [] => none
  | n + 1, (d, b) :: s =>
    match readBytes n s with
    | none => none
    | some (d', bs, rest) => some (d + d', b :: bs, rest)

theorem readBytes_length {n : Nat} {s : List (Nat × Nat)} {d : Nat}
    {bs : List Nat} {rest : List (Nat × Nat)}
    (h : readBytes n s = some (d, bs, rest)) : rest.length + n = s.length := by
  induction n generalizing s d bs rest with
  | zero =>
    simp [readBytes] at h
    simp [h.2.2]
  | succ n ih =>
    match s with
    | [] => simp [readBytes] at h
    | (d₀, b₀) :: s' =>
      simp only [readBytes] at h
      cases h' : readBytes n s' with
      | none => rw [h'] at h; simp at h
      | some r =>
        obtain ⟨d', bs', rest'⟩ := r
        rw [h'] at h
        simp at h
        have := ih h'
        simp [← h.2.2]
        omega

/-- The possible outcomes of one `Message::decode` call.  `ok` is a normal
return; `ioError` is an `Err` propagated by `?` from a read on a closed
stream; `timeout` is the `bail!` after the 5-second deadline, carrying the
awaited tag named in the error message; `blocked` records that the call is
stuck in a read that never completes (an open stream with no more data). -/
inductive DecodeResult
  | ok (m : Message)
  | ioError
  | timeout (tag : MessageTag)
  | blocked
deriving DecidableEq, Repr

/-- The function `Message::decode` of peer.rs (lines 170-192).  Loop structure exactly
as in the source: the deadline `tick.elapsed() > 5s` is checked only at
the top of each iteration; then a 4-byte length prefix is read; length 0
or length > 18000 discards the prefix and retries; otherwise exactly
`length` bytes are read, byte 0 is interpreted as the tag, and a
recognized tag returns `(tag, buffer[1..])` while an unrecognized one
retries.  `elapsed` is the wall-clock time already spent, `closed` tells
whether the stream ends in EOF or in silence. -/
def Message.decode (tag : MessageTag) (elapsed : Nat) (closed : Bool)
    (s : List (Nat × Nat)) : DecodeResult :=
  if elapsed > 5 then .timeout tag
  else
    match h₁ : readBytes 4 s with
    | none => if closed then .ioError else .blocked
    | some (d, lenBytes, s₁) =>
      if u32beVal lenBytes = 0 ∨ u32beVal lenBytes > 18000 then
        Message.decode tag (elapsed + d) closed s₁
      else
        match h₂ : readBytes (u32beVal lenBytes) s₁ with
        | none => if closed then .ioError else .blocked
        | some (d₂, buffer, s₂) =>
          match MessageTag.ofIdx (buffer.headD 0) with
          | .ok t => .ok ⟨t, buffer.drop 1⟩
          | .error _ => Message.decode tag (elapsed + d + d₂) closed s₂
termination_by s.length
decreasing_by
  · have := readBytes_length h₁
    omega
  · have e₁ := readBytes_length h₁
    have e₂ := readBytes_length h₂
    omega

/-- A stream whose bytes all arrive instantly (duration 0). -/
def instant (bs : List Nat) : List (Nat × Nat) := bs.map (fun b => (0, b))

theorem instant_cons (b : Nat) (l : List Nat) :
    instant (b :: l) = (0, b) :: instant l := rfl

theorem readBytes_instant (a b : List Nat) :
    readBytes a.length (instant (a ++ b)) = some (0, a, instant b) := by
  induction a with
  | nil => simp [readBytes, instant]
  | cons x a ih =>
    rw [List.cons_append, instant_cons, List.length_cons]
    simp only [readBytes, ih]

theorem u32beVal_u32beBytes (n : Nat) :
    u32beVal (u32beBytes n) = n % 4294967296 := by
  simp only [u32beVal, u32beBytes, List.foldl]
  omega

theorem MessageTag.ofIdx_toNat (t : MessageTag) :
    MessageTag.ofIdx t.toNat = .ok t := by
  cases t <;> rfl

/-- Decoding a stream that starts with the bytes of `Message.encode tag
payload` (any trailing bytes allowed) returns `(tag, payload)`, provided
the deadline has not yet passed and the payload fits under the 18000-byte
length ceiling. -/
theorem decode_encode (awaited tag : MessageTag) (payload rest : List Nat)
    (closed : Bool) (elapsed : Nat) (he : elapsed ≤ 5)
    (hlen : payload.length ≤ 17999) :
    Message.decode awaited elapsed closed
      (instant (Message.encode tag payload ++ rest)) = .ok ⟨tag, payload⟩ := by
  have h4 : (u32beBytes ((payload.length + 1) % 4294967296)).length = 4 := rfl
  have hr1 := readBytes_instant
    (u32beBytes ((payload.length + 1) % 4294967296)) ((tag.toNat :: payload) ++ rest)
  rw [h4] at hr1
  have hr2 := readBytes_instant (tag.toNat :: payload) rest
  rw [List.length_cons] at hr2
  rw [Message.decode, if_neg (by omega : ¬ elapsed > 5), Message.encode,
    List.append_assoc]
  split
  · next heq =>
    rw [hr1] at heq
    exact absurd heq (by simp)
  · next d lenBytes s₁ heq =>
    rw [hr1] at heq
    simp only [Option.some.injEq, Prod.mk.injEq] at heq
    obtain ⟨h1, h2, h3⟩ := heq
    subst h1 h2 h3
    rw [u32beVal_u32beBytes]
    rw [if_neg (by omega :
      ¬ ((payload.length + 1) % 4294967296 % 4294967296 = 0 ∨
         (payload.length + 1) % 4294967296 % 4294967296 > 18000))]
    have hmod : (payload.length + 1) % 4294967296 % 4294967296 = payload.length + 1 := by
      omega
    rw [hmod]
    split
    · next heq2 =>
      rw [hr2] at heq2
      exact absurd heq2 (by simp)
    · next d₂ buffer s₂ heq2 =>
      rw [hr2] at heq2
      simp only [Option.some.injEq, Prod.mk.injEq] at heq2
      obtain ⟨h1, h2, h3⟩ := heq2
      subst h1 h2 h3
      simp [MessageTag.ofIdx_toNat]

/-- Discarding a 4-byte length prefix that is 0 (keep-alive) or above the
18000 sanity ceiling: `Message::decode` retries on the rest of the stream
without error. -/
theorem decode_discards_bad_length (awaited : MessageTag) (pre tail : List Nat)
    (closed : Bool) (elapsed : Nat) (h4 : pre.length = 4)
    (hval : u32beVal pre = 0 ∨ u32beVal pre > 18000) (he : elapsed ≤ 5) :
    Message.decode awaited elapsed closed (instant (pre ++ tail)) =
      Message.decode awaited elapsed closed (instant tail) := by
  have hr := readBytes_instant pre tail
  rw [h4] at hr
  conv_lhs => rw [Message.decode]
  rw [if_neg (by omega : ¬ elapsed > 5)]
  split
  · next heq =>
    rw [hr] at heq
    exact absurd heq (by simp)
  · next d lenBytes s₁ heq =>
    rw [hr] at heq
    simp only [Option.some.injEq, Prod.mk.injEq] at heq
    obtain ⟨h1, h2, h3⟩ := heq
    subst h1 h2 h3
    rw [if_pos hval]
    norm_num

/-- C5: framing round-trip.  For every tag of the closed enum and every
payload within the framer's acceptable bound (length + 1 ≤ 18000, i.e.
payload length ≤ 17999), decoding a stream holding exactly the bytes
produced by `Message.encode tag payload` — `u32_be(len+1) || tag_byte ||
payload` — returns the message `(tag, payload)`, whatever tag the caller
awaited. -/
theorem framing_roundtrip (awaited tag : MessageTag) (payload : List Nat)
    (closed : Bool) (hlen : payload.length ≤ 17999)
    (hbytes : ∀ b ∈ payload, b < 256) :
    Message.decode awaited 0 closed (instant (Message.encode tag payload)) =
      .ok ⟨tag, payload⟩ := by
  have h := decode_encode awaited tag payload [] closed 0 (by omega) hlen
  rwa [List.append_nil] at h

/-- Witness for C5 at a concrete tag and payload. -/
theorem framing_roundtrip_witness :
    Message.decode .Piece 0 true (instant (Message.encode .Interested [200, 17])) =
      .ok ⟨.Interested, [200, 17]⟩ :=
  framing_roundtrip .Piece .Interested [200, 17] true (by decide) (by decide)

/-- C8: a zero-length (keep-alive) frame in front of a well-formed frame
is skipped and the following frame is returned, never an error; the same
skip-and-retry holds for a 4-byte length prefix encoding a value above
18000 (only the prefix is discarded, then the next length field is read).
-/
theorem keepalive_skip (awaited tag : MessageTag) (payload rest : List Nat)
    (closed : Bool) (L : Nat) (hlen : payload.length ≤ 17999)
    (hL1 : 18000 < L) (hL2 : L < 4294967296) :
    Message.decode awaited 0 closed
        (instant ([0, 0, 0, 0] ++ (Message.encode tag payload ++ rest))) =
      .ok ⟨tag, payload⟩ ∧
    Message.decode awaited 0 closed
        (instant (u32beBytes L ++ (Message.encode tag payload ++ rest))) =
      .ok ⟨tag, payload⟩ := by
  constructor
  · have h := decode_discards_bad_length awaited [0, 0, 0, 0]
      (Message.encode tag payload ++ rest) closed 0 rfl (Or.inl rfl) (by omega)
    rw [h]
    exact decode_encode awaited tag payload rest closed 0 (by omega) hlen
  · have hvL : u32beVal (u32beBytes L) = 0 ∨ u32beVal (u32beBytes L) > 18000 := by
      right
      rw [u32beVal_u32beBytes]
      omega
    have h := decode_discards_bad_length awaited (u32beBytes L)
      (Message.encode tag payload ++ rest) closed 0 rfl hvL (by omega)
    rw [h]
    exact decode_encode awaited tag payload rest closed 0 (by omega) hlen

/-- Witness for C8 at a concrete frame and an oversized length prefix. -/
theorem keepalive_skip_witness :
    Message.decode .Unchoke 0 false
        (instant ([0, 0, 0, 0] ++ (Message.encode .Have [3] ++ [9]))) =
      .ok ⟨.Have, [3]⟩ ∧
    Message.decode .Unchoke 0 false
        (instant (u32beBytes 20000 ++ (Message.encode .Have [3] ++ [9]))) =
      .ok ⟨.Have, [3]⟩ :=
  keepalive_skip .Unchoke .Have [3] [9] false 20000 (by decide) (by decide) (by decide)

/-- C4 counterexample: a peer that sends nothing at all (open stream, no
bytes ever arrive) leaves `Message::decode` stuck in the first `read_u32`
forever; the call never reaches the deadline check again and never fails
with the timeout error, contrary to the claim. -/
theorem decode_silent_peer_blocks :
    Message.decode .Piece 0 false [] = .blocked ∧
    Message.decode .Piece 0 false [] ≠ .timeout .Piece := by
  have h : Message.decode .Piece 0 false [] = .blocked := by
    rw [Message.decode]
    rfl
  exact ⟨h, by rw [h]; intro hc; cases hc⟩

/-- C4 amended: the 5-second deadline is checked only at the top of each
loop iteration, before the blocking reads.  `decode` fails with the
timeout error naming the awaited tag only when an iteration begins after
the deadline has already passed — e.g. after discarding a keep-alive whose
four length bytes took more than 5 seconds to arrive — while a peer that
sends nothing at all leaves the call blocked in the read forever. -/
theorem decode_deadline_between_reads (t : MessageTag) (d : Nat)
    (closed : Bool) (rest : List (Nat × Nat)) (hd : 5 < d) :
    Message.decode t 0 closed ((d, 0) :: (0, 0) :: (0, 0) :: (0, 0) :: rest) =
      .timeout t ∧
    Message.decode t 0 false [] = .blocked := by
  have hr : readBytes 4 ((d, 0) :: (0, 0) :: (0, 0) :: (0, 0) :: rest) =
      some (d, [0, 0, 0, 0], rest) := rfl
  constructor
  · rw [Message.decode, if_neg (by omega : ¬ (0 : Nat) > 5)]
    split
    · next heq =>
      rw [hr] at heq
      exact absurd heq (by simp)
    · next d' lenBytes s₁ heq =>
      rw [hr] at heq
      simp only [Option.some.injEq, Prod.mk.injEq] at heq
      obtain ⟨h1, h2, h3⟩ := heq
      subst h1 h2 h3
      rw [if_pos (by decide :
        u32beVal [0, 0, 0, 0] = 0 ∨ u32beVal [0, 0, 0, 0] > 18000)]
      rw [Message.decode, if_pos (by omega : 0 + d > 5)]
  · rw [Message.decode]
    rfl

/-- Witness for the amended C4 at a concrete slow keep-alive. -/
theorem decode_deadline_between_reads_witness :
    Message.decode .Piece 0 true ((6, 0) :: (0, 0) :: (0, 0) :: (0, 0) :: []) =
      .timeout .Piece ∧
    Message.decode .Piece 0 false [] = .blocked :=
  decode_deadline_between_reads .Piece 6 true [] (by omega)

/-- Rust slice indexing `l[a..b]`: `none` models the out-of-bounds panic,
otherwise the elements from position `a` (inclusive) to `b` (exclusive). -/
def listSlice (l : List Nat) (a b : Nat) : Option (List Nat) :=
  if a ≤ b ∧ b ≤ l.length then some ((l.drop a).take (b - a)) else none

/-- Rust slice indexing `l[a..]`: `none` models the out-of-bounds panic. -/
def listSliceFrom (l : List Nat) (a : Nat) : Option (List Nat) :=
  if a ≤ l.length then some (l.drop a) else none

theorem listSlice_length {l r : List Nat} {a b : Nat}
    (h : listSlice l a b = some r) : r.length = b - a ∧ b ≤ l.length := by
  unfold listSlice at h
  split at h
  · next hc =>
    simp only [Option.some.injEq] at h
    subst h
    simp only [List.length_take, List.length_drop]
    omega
  · exact absurd h (by simp)

/-- The `Response` struct of peer.rs (lines 219-223): a decoded Piece
payload — piece index, block offset, block data. -/
structure Response where
  idx : Nat
  offset : Nat
  data : List Nat
deriving DecidableEq, Repr

/-- Outcome of a fallible Rust function that can also panic: `panicked`
for an index/slice panic, `error` for an `Err` return, `ok` otherwise. -/
inductive DecodeOutcome (α : Type)
  | panicked
  | error
  | ok (a : α)
deriving DecidableEq, Repr

/-- The function `Response::decode` of peer.rs (lines 224-231): slices
`payload[0..4]`, `payload[4..8]`, `payload[8..]` (each slice panics when
out of bounds), converts the first two via `try_into` (an `Err` would be
propagated by `?`, but a successful 4-byte slice always converts), and
builds the `Response`. -/
def Response.decode (m : Message) : DecodeOutcome Response :=
  match listSlice m.payload 0 4 with
  | none => .panicked
  | some b₁ =>
    if b₁.length = 4 then
      match listSlice m.payload 4 8 with
      | none => .panicked
      | some b₂ =>
        if b₂.length = 4 then
          match listSliceFrom m.payload 8 with
          | none => .panicked
          | some d => .ok ⟨u32beVal b₁, u32beVal b₂, d⟩
        else .error
    else .error

/-- C9: `Response::decode` is only well-defined for Piece payloads of at
least 8 bytes — any shorter payload makes one of the slice indexings
`payload[0..4]` / `payload[4..8]` go out of bounds, which is a panic, not
an `Err` return. -/
theorem response_decode_short_panics (m : Message)
    (h : m.payload.length < 8) : Response.decode m = .panicked := by
  cases h₀ : listSlice m.payload 0 4 with
  | none => simp [Response.decode, h₀]
  | some b₁ =>
    have hb := (listSlice_length h₀).1
    have h₁ : listSlice m.payload 4 8 = none := by
      unfold listSlice
      rw [if_neg (by omega)]
    simp [Response.decode, h₀, h₁, hb]

/-- Witness for C9 at a concrete 3-byte Piece payload. -/
theorem response_decode_short_panics_witness :
    Response.decode ⟨.Piece, [1, 2, 3]⟩ = .panicked :=
  response_decode_short_panics ⟨.Piece, [1, 2, 3]⟩ (by decide)

/-- The buffer write
`downloaded_piece[block_offset..block_offset + data.len()].copy_from_slice(&data)`
of peer.rs (line 104): `none` models the slice-bounds panic when the
write would run past the end of the buffer, otherwise the updated buffer.
(`copy_from_slice` itself never fails here: the destination slice has
exactly `data.len()` elements.) -/
def writeCopy (buf : List Nat) (off : Nat) (data : List Nat) : Option (List Nat) :=
  if off + data.length ≤ buf.length then
    some (buf.take off ++ data ++ buf.drop (off + data.length))
  else none

/-- The receive step of one `download_piece` loop iteration (peer.rs
103-106), applied to an already-decoded `Response`: accept the data only
when its index and offset equal the outstanding request
(`piece_idx`, `block_offset = bytes_downloaded`); on acceptance copy into
the buffer (panic modelled as `none`) and advance the byte counter by the
data length; otherwise leave counter and buffer unchanged. -/
def dpStep (pieceIdx bytesDownloaded : Nat) (buf : List Nat)
    (resp : Response) : Option (Nat × List Nat) :=
  if resp.idx = pieceIdx ∧ resp.offset = bytesDownloaded then
    match writeCopy buf bytesDownloaded resp.data with
    | none => none
    | some buf' => some (bytesDownloaded + resp.data.length, buf')
  else some (bytesDownloaded, buf)

/-- C6: a Piece response whose decoded index or offset differs from the
outstanding request is discarded without failing — the piece buffer and
the downloaded-byte counter are returned unchanged (and since the loop
condition is `bytes_downloaded < plength`, the loop simply re-awaits). -/
theorem mismatched_response_discarded (pieceIdx bytesDownloaded : Nat)
    (buf : List Nat) (resp : Response)
    (h : resp.idx ≠ pieceIdx ∨ resp.offset ≠ bytesDownloaded) :
    dpStep pieceIdx bytesDownloaded buf resp = some (bytesDownloaded, buf) := by
  unfold dpStep
  rw [if_neg (by tauto)]

/-- Witness for C6 at a concrete mismatched response. -/
theorem mismatched_response_discarded_witness :
    dpStep 0 0 [0] ⟨1, 0, [5]⟩ = some (0, [0]) :=
  mismatched_response_discarded 0 0 [0] ⟨1, 0, [5]⟩ (Or.inl (by decide))

/-- C10: an accepted response's data length is never validated — when
index and offset match the outstanding request but
`block_offset + data.len()` exceeds the piece length (the buffer was
allocated as `vec![0u8; plength]`), the copy into the buffer panics
(`none`) instead of discarding the response or returning an error. -/
theorem oversized_block_panics (pieceIdx plength bytesDownloaded : Nat)
    (buf : List Nat) (resp : Response) (hbuf : buf.length = plength)
    (h1 : resp.idx = pieceIdx) (h2 : resp.offset = bytesDownloaded)
    (h3 : plength < bytesDownloaded + resp.data.length) :
    dpStep pieceIdx bytesDownloaded buf resp = none := by
  unfold dpStep
  rw [if_pos ⟨h1, h2⟩]
  unfold writeCopy
  rw [if_neg (by omega)]

/-- Witness for C10: a matching response carrying 2 bytes into a 1-byte
piece buffer. -/
theorem oversized_block_panics_witness :
    dpStep 0 0 [0] ⟨0, 0, [1, 2]⟩ = none :=
  oversized_block_panics 0 1 0 [0] ⟨0, 0, [1, 2]⟩ rfl rfl rfl (by decide)

/-- The `(block_offset, block_length)` request schedule of the
`download_piece` loop (peer.rs 90-98) when every response delivers
exactly the requested block: starting from `bytes_downloaded`, each
iteration requests offset `bytes_downloaded` and length
`(plength - bytes_downloaded).min(BLOCK_SIZE)` with `BLOCK_SIZE = 1 << 14
= 16384`, then advances the counter by that length; the loop runs while
`bytes_downloaded < plength`. -/
def blockSchedule (plength bytesDownloaded : Nat) : List (Nat × Nat) :=
  if bytesDownloaded < plength then
    (bytesDownloaded, min (plength - bytesDownloaded) 16384) ::
      blockSchedule plength (bytesDownloaded + min (plength - bytesDownloaded) 16384)
  else []
termination_by plength - bytesDownloaded
decreasing_by omega

theorem blockSchedule_mem (plength : Nat) :
    ∀ bytesDownloaded ob, ob ∈ blockSchedule plength bytesDownloaded →
      bytesDownloaded ≤ ob.1 ∧ ob.2 = min (plength - ob.1) 16384 := by
  intro bd
  induction bd using blockSchedule.induct plength with
  | case1 bd hlt ih =>
    intro ob hob
    rw [blockSchedule, if_pos hlt] at hob
    rcases List.mem_cons.mp hob with h | h
    · subst h
      exact ⟨Nat.le_refl _, rfl⟩
    · have := ih ob h
      exact ⟨by omega, this.2⟩
  | case2 bd hge =>
    intro ob hob
    rw [blockSchedule, if_neg hge] at hob
    simp at hob

theorem blockSchedule_chain (plength : Nat) :
    ∀ bd, List.Chain' (fun a b : Nat × Nat => a.1 < b.1) (blockSchedule plength bd) := by
  intro bd
  induction bd using blockSchedule.induct plength with
  | case1 bd hlt ih =>
    rw [blockSchedule, if_pos hlt]
    refine List.chain'_cons'.mpr ⟨?_, ih⟩
    intro y hy
    have hmem : y ∈ blockSchedule plength (bd + min (plength - bd) 16384) :=
      List.mem_of_mem_head? hy
    have := (blockSchedule_mem plength _ y hmem).1
    simp only []
    omega
  | case2 bd hge =>
    rw [blockSchedule, if_neg hge]
    exact List.chain'_nil

/-- C7: `download_piece` splits every piece length into blocks requested
in strictly ascending offset order, each of length exactly
`min(16384, remaining bytes)`; a 32768-byte piece gives exactly two
16384-byte blocks, and a 20000-byte piece gives a 16384-byte block
followed by a 3616-byte block. -/
theorem block_splitting :
    blockSchedule 32768 0 = [(0, 16384), (16384, 16384)] ∧
    blockSchedule 20000 0 = [(0, 16384), (16384, 3616)] ∧
    (∀ plength ob, ob ∈ blockSchedule plength 0 →
      ob.2 = min 16384 (plength - ob.1)) ∧
    (∀ plength, List.Chain' (fun a b : Nat × Nat => a.1 < b.1)
      (blockSchedule plength 0)) := by
  refine ⟨?_, ?_, ?_, fun plength => blockSchedule_chain plength 0⟩
  · rw [blockSchedule]
    norm_num [Nat.min_def]
    rw [blockSchedule]
    norm_num [Nat.min_def]
    rw [blockSchedule]
    norm_num
  · rw [blockSchedule]
    norm_num [Nat.min_def]
    rw [blockSchedule]
    norm_num [Nat.min_def]
    rw [blockSchedule]
    norm_num
  · intro plength ob hob
    rw [(blockSchedule_mem plength 0 ob hob).2, Nat.min_comm]

/-- Witness for C7: the second block of a 20000-byte piece has length
`min(16384, 20000 - 16384) = 3616`. -/
theorem block_splitting_witness :
    ((16384, 3616) : Nat × Nat).2 = min 16384 (20000 - (16384, 3616).1) := by
  have hmem : ((16384, 3616) : Nat × Nat) ∈ blockSchedule 20000 0 := by
    rw [block_splitting.2.1]
    simp
  exact block_splitting.2.2.1 20000 (16384, 3616) hmem

/-- The 8 binary digits of a byte value, most significant first. -/
def bits8 (b : Nat) : List Nat :=
  [b / 128 % 2, b / 64 % 2, b / 32 % 2, b / 16 % 2,
   b / 8 % 2, b / 4 % 2, b / 2 % 2, b % 2]

/-- Models `format!("{:b}", chunk)` for a byte value (the external
formatter called in `Peer::new`, peer.rs line 58): the binary digits most
significant first with leading zeros dropped; 0 renders as the single
digit 0. -/
def binFormat (b : Nat) : List Nat :=
  if (bits8 b).dropWhile (fun d => d == 0) = [] then [0]
  else (bits8 b).dropWhile (fun d => d == 0)

/-- The inner character loop of the bitfield scan (peer.rs 59-64): for
each digit, push the running `piece_count` when the digit is 1, and
increment `piece_count` for every digit. -/
def scanBits : List Nat → Nat → List Nat
  | [], _ => []
  | d :: ds, count =>
    if d = 1 then count :: scanBits ds (count + 1) else scanBits ds (count + 1)

/-- The bitfield decoding loop of `Peer::new` (peer.rs 55-65): for each
payload byte, scan the digits of `format!("{:b}", chunk)` with the global
running counter. -/
def decodeBitfieldAux : List Nat → Nat → List Nat
  | [], _ => []
  | chunk :: rest, count =>
    scanBits (binFormat chunk) count ++
      decodeBitfieldAux rest (count + (binFormat chunk).length)

/-- The piece-index list derived from a Bitfield payload in `Peer::new`,
starting from `piece_count = 0`. -/
def decodeBitfield (payload : List Nat) : List Nat := decodeBitfieldAux payload 0

/-- C2 (code evaluated at the failing inputs): because `{:b}` drops
leading zeros, a byte whose most significant bit is 0 contributes fewer
than 8 bit positions.  Byte `0b10100000` does yield `{0, 2}` as the spec's
example says, but byte `0b00000001` yields piece 0 instead of piece 7, and
the payload `[0b00000001, 0b10000000]` yields `{0, 1}` instead of the
`{7, 8}` required by a most-significant-bit-first scan over all 8 bits of
each byte. -/
theorem bitfield_drops_leading_zeros :
    decodeBitfield [160] = [0, 2] ∧
    decodeBitfield [1] = [0] ∧
    decodeBitfield [1, 128] = [0, 1] := by
  decide

/-- The peer-construction loop of `Client::new` (client.rs 31-35): the
outcome of each `Peer::new` call (connect + handshake + bitfield, an
external network interaction) is given as an `Except` value; the loop
pushes each successful peer and the `?` returns the first failure from
`Client::new` itself. -/
def buildPeers {α : Type} : List (Except String α) → Except String (List α)
  | [] => .ok []
  | .error e :: _ => .error e
  | .ok p :: rs =>
    match buildPeers rs with
    | .error e => .error e
    | .ok ps => .ok (p :: ps)

/-- C3 counterexample: with two candidate peers where the first connect
fails and the second would succeed, `Client::new` does not skip the failed
peer and proceed — the `?` aborts the whole construction with the error
(a skip would have produced the one usable peer). -/
theorem connect_failure_not_skipped :
    buildPeers [Except.error "connect refused", Except.ok (0 : Nat)] =
      Except.error "connect refused" ∧
    buildPeers [Except.error "connect refused", Except.ok (0 : Nat)] ≠
      Except.ok [0] := by
  refine ⟨rfl, ?_⟩
  intro h
  rw [show buildPeers [Except.error "connect refused", Except.ok (0 : Nat)] =
    Except.error "connect refused" from rfl] at h
  cases h

/-- C3 amended: a socket connect (or handshake) failure for one peer
address is not local — `Client::new` propagates the first such failure and
aborts construction of the whole client, however many later addresses
would succeed; only when every address connects does construction
proceed. -/
theorem connect_failure_aborts_client :
    (∀ (α : Type) (pre : List α) (e : String) (post : List (Except String α)),
      buildPeers (pre.map Except.ok ++ Except.error e :: post) = Except.error e) ∧
    (∀ (α : Type) (l : List α), buildPeers (l.map Except.ok) = Except.ok l) := by
  constructor
  · intro α pre e post
    induction pre with
    | nil => rfl
    | cons x xs ih => simp [buildPeers, ih]
  · intro α l
    induction l with
    | nil => rfl
    | cons x xs ih => simp [buildPeers, ih]

/-- The verify-and-append step of `Client::download_file` (client.rs
65-72), one entry per piece index in ascending order: `slices` holds the
bytes fetched for each piece, `hashOf` abstracts
`hex::encode(Sha1::digest(slice))`, and `piece_hashes` is the expected
hash table.  The code asserts `piece_hashes.contains(&piece_hash)` — a
failed assertion halts the program, modelled as an `error` — and extends
the buffer with the slice when the assertion passes. -/
def verifyAppend (piece_hashes : List String) (hashOf : List Nat → String) :
    List (List Nat) → List Nat → Except String (List Nat)
  | [], buffer => .ok buffer
  | slice :: rest, buffer =>
    if piece_hashes.contains (hashOf slice) then
      verifyAppend piece_hashes hashOf rest (buffer ++ slice)
    else .error "assertion failed"

/-- C1 counterexample: the verify step checks the computed digest for
membership anywhere in the hash table, not against the entry at the
piece's own index.  With expected hashes `["1111", "2222"]` and a piece 0
whose bytes hash to `"2222"`, the bytes are appended even though the hash
differs from `expected_hashes[0] = "1111"`. -/
theorem hash_checked_by_membership_not_index :
    verifyAppend ["1111", "2222"] (fun _ => "2222") [[7]] [] = Except.ok [7] ∧
    ¬ ((fun _ : List Nat => "2222") [7] = ["1111", "2222"].getD 0 "") := by
  refine ⟨rfl, ?_⟩
  intro h
  simp at h

/-- C1 amended: for every piece index, the SHA-1 digest of the fetched
bytes is checked for membership anywhere in `expected_hashes` (via
`contains`, not at the piece's own index), and the piece's bytes are
appended to the output buffer only when that membership check succeeds —
a failure halts the run before appending anything further. -/
theorem verify_append_membership (piece_hashes : List String)
    (hashOf : List Nat → String) (slices : List (List Nat))
    (buffer out : List Nat)
    (h : verifyAppend piece_hashes hashOf slices buffer = .ok out) :
    out = buffer ++ slices.flatten ∧
    ∀ s ∈ slices, piece_hashes.contains (hashOf s) = true := by
  induction slices generalizing buffer with
  | nil =>
    simp only [verifyAppend, Except.ok.injEq] at h
    subst h
    simp
  | cons s rest ih =>
    simp only [verifyAppend] at h
    by_cases hc : piece_hashes.contains (hashOf s)
    · rw [if_pos hc] at h
      have hr := ih _ h
      constructor
      · rw [hr.1]
        simp
      · intro t ht
        rcases List.mem_cons.mp ht with h' | h'
        · subst h'
          exact hc
        · exact hr.2 t h'
    · rw [if_neg hc] at h
      cases h

/-- Witness for the amended C1 at a concrete two-piece download. -/
theorem verify_append_membership_witness :
    ([1, 2, 3] : List Nat) = [] ++ [[1], [2, 3]].flatten ∧
    ∀ s ∈ [[1], [2, 3]], (["h"] : List String).contains ((fun _ => "h") s) = true :=
  verify_append_membership ["h"] (fun _ => "h") [[1], [2, 3]] [] [1, 2, 3] rfl

end BitTorrent
